import Mathlib

/-!
Verification of the two-layer perceptron training core of `src/lab1/lab1.py`
(class `TwoLayerPerceptron`), against the natural-language specification.

Matrices are embedded as lists of rows of real numbers (`Mat`).  The numpy
operations used by the source are embedded with their broadcasting and
shape-error behaviour: an operation that would raise a numpy `ValueError`
returns `none`.  Matrix results are built with `mkMat`, which constructs the
row-major matrix of a coordinate function, so every produced matrix is
rectangular by construction.

The stochastic weight initialisation (`initialize_weights` draws V and W from
scaled normal distributions) is embedded by passing the sampled matrices
V0, W0 as parameters: the embedding is deterministic in the samples.

In-place mutation (numpy fancy-assignment in `predict`) is embedded by
explicit state passing over a heap of matrices (`predictRef`,
`compute_accuracyRef`).
-/

namespace Lab1

/-- A real matrix as a list of rows. -/
abbrev Mat := List (List ℝ)

/-- Number of rows (numpy `shape[0]`). -/
def rowsM (A : Mat) : Nat := A.length

/-- Number of columns (numpy `shape[1]`, read off the first row). -/
def colsM (A : Mat) : Nat := (A.headD []).length

/-- Entry at row `i`, column `j`, defaulting to `0` out of range. -/
def entry (A : Mat) (i j : Nat) : ℝ := (A.getD i []).getD j 0

/-- The matrix is rectangular with `n` rows and `c` columns. -/
def Rect (A : Mat) (n c : Nat) : Prop := A.length = n ∧ ∀ r ∈ A, r.length = c

/-- Row-major matrix of a coordinate function. -/
def mkMat (n c : Nat) (f : Nat → Nat → ℝ) : Mat :=
  (List.range n).map fun i => (List.range c).map fun j => f i j

/-- Elementwise map over all entries (numpy universal function application). -/
def matMap (f : ℝ → ℝ) (A : Mat) : Mat := A.map (List.map f)

/-- Scalar multiple of a matrix. -/
def smulMat (c : ℝ) (A : Mat) : Mat := matMap (fun x => c * x) A

/-- Transpose (numpy `.T`). -/
def transposeM (A : Mat) : Mat := mkMat (colsM A) (rowsM A) fun i j => entry A j i

/-- Matrix product (numpy `@`): `none` models the `ValueError` raised when the
inner dimensions disagree. -/
def npMatMul (A B : Mat) : Option Mat :=
  if colsM A = B.length then
    some (mkMat (rowsM A) (colsM B) fun i j =>
      ∑ k ∈ Finset.range (colsM A), entry A i k * entry B k j)
  else none

/-- Numpy broadcasting of one axis: equal sizes pass through, a size of `1` is
stretched to the other size, anything else is a `ValueError` (`none`). -/
def broadcastDim (a b : Nat) : Option Nat :=
  if a = b then some a else if a = 1 then some b else if b = 1 then some a else none

/-- Entry lookup under broadcasting: a size-one axis always reads index `0`. -/
def bEntry (A : Mat) (i j : Nat) : ℝ :=
  entry A (if rowsM A = 1 then 0 else i) (if colsM A = 1 then 0 else j)

/-- Elementwise binary numpy operation with broadcasting on both axes. -/
def npBinop (f : ℝ → ℝ → ℝ) (A B : Mat) : Option Mat :=
  match broadcastDim (rowsM A) (rowsM B), broadcastDim (colsM A) (colsM B) with
  | some n, some c => some (mkMat n c fun i j => f (bEntry A i j) (bEntry B i j))
  | _, _ => none

/-- Numpy elementwise `+` (as used by the in-place `+=` on the weights). -/
def npAdd : Mat → Mat → Option Mat := npBinop (· + ·)

/-- Numpy elementwise `-`. -/
def npSub : Mat → Mat → Option Mat := npBinop (· - ·)

/-- Numpy elementwise `*` (`np.multiply`). -/
def npMul : Mat → Mat → Option Mat := npBinop (· * ·)

/-- Indicator of disagreement, the real value of a numpy `!=` boolean. -/
noncomputable def neInd (a b : ℝ) : ℝ := if a = b then 0 else 1

/-- Numpy elementwise `!=`, producing the 0/1 matrix that `np.mean` consumes. -/
noncomputable def npNe : Mat → Mat → Option Mat := npBinop neInd

/-- Sum of all entries of a matrix. -/
def entriesSum (A : Mat) : ℝ := (A.map fun r => r.sum).sum

/-- Numpy `np.mean`: total divided by the number of entries. -/
noncomputable def npMean (A : Mat) : ℝ := entriesSum A / (rowsM A * colsM A : Nat)

/-! ### Basic lemmas about the matrix embedding -/

theorem rows_mkMat (n c : Nat) (f : Nat → Nat → ℝ) : rowsM (mkMat n c f) = n := by
  simp [rowsM, mkMat]

theorem cols_mkMat {n : Nat} (c : Nat) (f : Nat → Nat → ℝ) (hn : 0 < n) :
    colsM (mkMat n c f) = c := by
  unfold colsM mkMat
  obtain ⟨m, rfl⟩ := Nat.exists_eq_succ_of_ne_zero (Nat.pos_iff_ne_zero.mp hn)
  simp [List.range_succ_eq_map]

theorem rect_mkMat (n c : Nat) (f : Nat → Nat → ℝ) : Rect (mkMat n c f) n c := by
  constructor
  · simp [mkMat]
  · intro r hr
    simp only [mkMat, List.mem_map] at hr
    obtain ⟨i, _, rfl⟩ := hr
    simp

theorem Rect.rows_eq {A : Mat} {n c : Nat} (h : Rect A n c) : rowsM A = n := h.1

theorem Rect.cols_eq {A : Mat} {n c : Nat} (h : Rect A n c) (hn : 0 < n) :
    colsM A = c := by
  unfold colsM
  rcases A with _ | ⟨r, A⟩
  · exact absurd (h.1 ▸ hn) (by simp)
  · simpa using h.2 r (by simp)

theorem entry_mkMat {n c i j : Nat} (f : Nat → Nat → ℝ) (hi : i < n) (hj : j < c) :
    entry (mkMat n c f) i j = f i j := by
  unfold entry mkMat
  have h1 : ((List.range n).map fun i => (List.range c).map fun j => f i j).getD i []
      = (List.range c).map fun j => f i j := by
    rw [List.getD_eq_getElem _ _ (by simpa using hi)]
    simp
  rw [h1, List.getD_eq_getElem _ _ (by simpa using hj)]
  simp

theorem mkMat_congr {n c : Nat} {f g : Nat → Nat → ℝ}
    (h : ∀ i < n, ∀ j < c, f i j = g i j) : mkMat n c f = mkMat n c g := by
  unfold mkMat
  apply List.map_congr_left
  intro i hi
  apply List.map_congr_left
  intro j hj
  exact h i (List.mem_range.mp hi) j (List.mem_range.mp hj)

theorem rect_matMap {A : Mat} {n c : Nat} (f : ℝ → ℝ) (h : Rect A n c) :
    Rect (matMap f A) n c := by
  constructor
  · simp [matMap, h.1]
  · intro r hr
    simp only [matMap, List.mem_map] at hr
    obtain ⟨r', hr', rfl⟩ := hr
    simp [h.2 r' hr']

theorem matMap_mkMat (f : ℝ → ℝ) (n c : Nat) (g : Nat → Nat → ℝ) :
    matMap f (mkMat n c g) = mkMat n c fun i j => f (g i j) := by
  simp [matMap, mkMat, Function.comp]

theorem entry_matMap {A : Mat} {n c i j : Nat} (f : ℝ → ℝ) (h : Rect A n c)
    (hi : i < n) (hj : j < c) : entry (matMap f A) i j = f (entry A i j) := by
  unfold entry matMap
  have hi' : i < A.length := h.1 ▸ hi
  have hlen : A[i].length = c := h.2 _ (A.getElem_mem hi')
  have h1 : (A.map (List.map f)).getD i [] = List.map f A[i] := by
    rw [List.getD_eq_getElem _ _ (by simpa using hi')]
    simp
  have h2 : A.getD i [] = A[i] := List.getD_eq_getElem A [] hi'
  rw [h1, h2, List.getD_eq_getElem _ _ (by simpa [hlen] using hj),
    List.getD_eq_getElem _ _ (by simpa [hlen] using hj)]
  simp

/-! ### The two-layer perceptron of `lab1.py`

Embeddings of `TwoLayerPerceptron._activation_function`,
`_d_activation_function`, `forward_pass`, `predict`, `compute_accuracy` and
the body of `train`. -/

/-- Embeds `_activation_function`: `2 / (1 + np.exp(-x)) - 1`. -/
noncomputable def activation (x : ℝ) : ℝ := 2 / (1 + Real.exp (-x)) - 1

/-- Embeds `_d_activation_function`: `np.multiply((1 + x), (1 - x)) / 2`. -/
noncomputable def d_activation (x : ℝ) : ℝ := (1 + x) * (1 - x) / 2

/-- Embeds `forward_pass`: `h = φ(X @ V)`, `o = φ(h @ W)`, returning `(h, o)`.
The method only reads the weights; it assigns no attribute, so it is a pure
function of `V`, `W`, `X`. -/
noncomputable def forward_pass (V W X : Mat) : Option (Mat × Mat) := do
  let h := matMap activation (← npMatMul X V)
  let o := matMap activation (← npMatMul h W)
  some (h, o)

/-- Embeds `predict`: the fancy assignment `X[X >= threshold] = 1` followed by
`X[X < threshold] = -1`, as two sequential full-matrix passes over the same
buffer.  The value written back over the caller's buffer is this result. -/
noncomputable def predict (X : Mat) (threshold : ℝ) : Mat :=
  matMap (fun e => if e < threshold then -1 else e)
    (matMap (fun e => if threshold ≤ e then 1 else e) X)

/-- Embeds `compute_accuracy`: `p = predict(forward_pass(X)[1])` and
`1 - np.mean(p != t)` (the `!=` broadcasts like any numpy binary operation). -/
noncomputable def compute_accuracy (V W X t : Mat) : Option ℝ := do
  let ho ← forward_pass V W X
  let ne ← npNe (predict ho.2 0) t
  some (1 - npMean ne)

/-- Embeds `delta_o = np.multiply((o - t), _d_activation_function(o))`
(line 447 of `train`). -/
noncomputable def delta_o_mat (o t : Mat) : Option Mat := do
  npMul (← npSub o t) (matMap d_activation o)

/-- Embeds `delta_h = np.multiply(delta_o @ W.T, _d_activation_function(h))`
(lines 448-449 of `train`). -/
noncomputable def delta_h_mat (dO W h : Mat) : Option Mat := do
  npMul (← npMatMul dO (transposeM W)) (matMap d_activation h)

/-- Embeds one iteration of the `train` loop: forward pass, backward pass,
the two in-place weight updates `V += -eta * X.T @ delta_h` and
`W += -eta * h.T @ delta_o`, then `compute_accuracy` with the new weights.
A `none` models a numpy exception escaping the epoch. -/
noncomputable def epochStep (eta : ℝ) (V W X t : Mat) : Option (Mat × Mat × ℝ) := do
  let ho ← forward_pass V W X
  let dO ← delta_o_mat ho.2 t
  let dH ← delta_h_mat dO W ho.1
  let gV ← npMatMul (transposeM X) dH
  let Vn ← npAdd V (smulMat (-eta) gV)
  let gW ← npMatMul (transposeM ho.1) dO
  let Wn ← npAdd W (smulMat (-eta) gW)
  let acc ← compute_accuracy Vn Wn X t
  some (Vn, Wn, acc)

/-- Terminal reports of a training run: the `break` on accuracy `1.0`
(Converged), falling off the end of `range(self.epochs)` (Exhausted), or a
numpy exception escaping `train` (Error). -/
inductive Outcome
  | Converged
  | Exhausted
  | Error
  deriving DecidableEq

/-- Embeds the `for e in range(self.epochs)` loop of `train`: run an epoch;
break with `Converged` when the epoch's accuracy equals `1.0`; report
`Exhausted` when the budget is used up.  Returns the final weights, the
number of completed epochs and the outcome. -/
noncomputable def trainLoop (eta : ℝ) (X t : Mat) : Nat → Mat → Mat → Mat × Mat × Nat × Outcome
  | 0, V, W => (V, W, 0, Outcome.Exhausted)
  | Nat.succ fuel, V, W =>
    match epochStep eta V W X t with
    | none => (V, W, 0, Outcome.Error)
    | some (Vn, Wn, acc) =>
      if acc = 1 then (Vn, Wn, 1, Outcome.Converged)
      else
        let r := trainLoop eta X t fuel Vn Wn
        (r.1, r.2.1, r.2.2.1 + 1, r.2.2.2)

/-- Embeds `train`: `initialize_weights` assigns the freshly sampled matrices
`V0`, `W0` to the trainer (the samples are parameters of the deterministic
embedding), then the epoch loop runs. -/
noncomputable def train (eta : ℝ) (epochs : Nat) (V0 W0 X t : Mat) :
    Mat × Mat × Nat × Outcome :=
  trainLoop eta X t epochs V0 W0

/-! ### Closed-form matrices, modelled from the spec

These follow the specification's formulas (sections 4.2-4.4) and are compared
with the pipeline above: `H = φ(X·V)`, `O = φ(H·W)`,
`δ_O = (O − T) ⊙ φ'(O)`, `δ_H = (δ_O · Wᵀ) ⊙ φ'(H)`,
`V ← V − η·Xᵀ·δ_H`, `W ← W − η·Hᵀ·δ_O`. -/

/-- Modelled from the spec: `H = φ(X·V)` written entrywise. -/
noncomputable def specH (n d hh : Nat) (X V : Mat) : Mat :=
  mkMat n hh fun i j => activation (∑ k ∈ Finset.range d, entry X i k * entry V k j)

/-- Modelled from the spec: `O = φ(H·W)` written entrywise (output width 1). -/
noncomputable def specO (n hh : Nat) (H W : Mat) : Mat :=
  mkMat n 1 fun i j => activation (∑ k ∈ Finset.range hh, entry H i k * entry W k j)

/-- Modelled from the spec: `δ_O = (O − T) ⊙ φ'(O)` written entrywise. -/
noncomputable def specDeltaO (n : Nat) (O t : Mat) : Mat :=
  mkMat n 1 fun i j => (entry O i j - entry t i j) * d_activation (entry O i j)

/-- Modelled from the spec: `δ_H = (δ_O · Wᵀ) ⊙ φ'(H)` written entrywise
(the inner product collapses over the single output column). -/
noncomputable def specDeltaH (n hh : Nat) (dO W H : Mat) : Mat :=
  mkMat n hh fun i j => (entry dO i 0 * entry W j 0) * d_activation (entry H i j)

/-- Modelled from the spec: `V − η·Xᵀ·δ_H` written entrywise. -/
noncomputable def specVnew (d hh n : Nat) (eta : ℝ) (V X dH : Mat) : Mat :=
  mkMat d hh fun i j =>
    entry V i j - eta * ∑ k ∈ Finset.range n, entry X k i * entry dH k j

/-- Modelled from the spec: `W − η·Hᵀ·δ_O` written entrywise. -/
noncomputable def specWnew (hh n : Nat) (eta : ℝ) (W H dO : Mat) : Mat :=
  mkMat hh 1 fun i j =>
    entry W i j - eta * ∑ k ∈ Finset.range n, entry H k i * entry dO k j

/-! ### Shape and evaluation lemmas for the numpy operations -/

theorem transposeM_eq {A : Mat} {n c : Nat} (h : Rect A n c) (hn : 0 < n) :
    transposeM A = mkMat c n fun i j => entry A j i := by
  unfold transposeM
  rw [h.rows_eq, h.cols_eq hn]

theorem rect_transposeM {A : Mat} {n c : Nat} (h : Rect A n c) (hn : 0 < n) :
    Rect (transposeM A) c n := by
  rw [transposeM_eq h hn]
  exact rect_mkMat c n _

theorem entry_transposeM {A : Mat} {n c i j : Nat} (h : Rect A n c) (hn : 0 < n)
    (hi : i < c) (hj : j < n) : entry (transposeM A) i j = entry A j i := by
  rw [transposeM_eq h hn]
  exact entry_mkMat _ hi hj

theorem npMatMul_eq {A B : Mat} {n k c : Nat} (hA : Rect A n k) (hB : Rect B k c)
    (hn : 0 < n) (hk : 0 < k) :
    npMatMul A B =
      some (mkMat n c fun i j => ∑ kk ∈ Finset.range k, entry A i kk * entry B kk j) := by
  unfold npMatMul
  rw [hA.cols_eq hn, hB.1, if_pos rfl, hA.rows_eq, hB.cols_eq hk]

theorem bEntry_eq_entry {A : Mat} {n c i j : Nat} (h : Rect A n c) (hn : 0 < n)
    (hi : i < n) (hj : j < c) : bEntry A i j = entry A i j := by
  unfold bEntry
  rw [h.rows_eq, h.cols_eq hn]
  by_cases h1 : n = 1
  · subst h1
    have hi0 : i = 0 := Nat.lt_one_iff.mp hi
    by_cases h2 : c = 1
    · subst h2
      have hj0 : j = 0 := Nat.lt_one_iff.mp hj
      simp [hi0, hj0]
    · simp [hi0, h2]
  · by_cases h2 : c = 1
    · have hj0 : j = 0 := Nat.lt_one_iff.mp (h2 ▸ hj)
      simp [h1, hj0]
    · simp [h1, h2]

theorem npBinop_rect_eq {A B : Mat} {n c : Nat} (f : ℝ → ℝ → ℝ)
    (hA : Rect A n c) (hB : Rect B n c) (hn : 0 < n) :
    npBinop f A B = some (mkMat n c fun i j => f (entry A i j) (entry B i j)) := by
  unfold npBinop
  rw [hA.rows_eq, hB.rows_eq, hA.cols_eq hn, hB.cols_eq hn]
  simp only [broadcastDim, if_pos rfl]
  refine congrArg some (mkMat_congr ?_)
  intro i hi j hj
  rw [bEntry_eq_entry hA hn hi hj, bEntry_eq_entry hB hn hi hj]

theorem npAdd_rect_eq {A B : Mat} {n c : Nat} (hA : Rect A n c) (hB : Rect B n c)
    (hn : 0 < n) :
    npAdd A B = some (mkMat n c fun i j => entry A i j + entry B i j) :=
  npBinop_rect_eq _ hA hB hn

theorem npSub_rect_eq {A B : Mat} {n c : Nat} (hA : Rect A n c) (hB : Rect B n c)
    (hn : 0 < n) :
    npSub A B = some (mkMat n c fun i j => entry A i j - entry B i j) :=
  npBinop_rect_eq _ hA hB hn

theorem npMul_rect_eq {A B : Mat} {n c : Nat} (hA : Rect A n c) (hB : Rect B n c)
    (hn : 0 < n) :
    npMul A B = some (mkMat n c fun i j => entry A i j * entry B i j) :=
  npBinop_rect_eq _ hA hB hn

theorem npNe_rect_eq {A B : Mat} {n c : Nat} (hA : Rect A n c) (hB : Rect B n c)
    (hn : 0 < n) :
    npNe A B = some (mkMat n c fun i j => neInd (entry A i j) (entry B i j)) :=
  npBinop_rect_eq _ hA hB hn

theorem broadcastDim_none {a b : Nat} (hab : a ≠ b) (ha : a ≠ 1) (hb : b ≠ 1) :
    broadcastDim a b = none := by
  simp [broadcastDim, hab, ha, hb]

theorem npBinop_none {A B : Mat} (f : ℝ → ℝ → ℝ)
    (h : broadcastDim (rowsM A) (rowsM B) = none) : npBinop f A B = none := by
  unfold npBinop
  rw [h]

/-! ### Closed forms for the forward and backward pipeline -/

theorem rect_specH (n d hh : Nat) (X V : Mat) : Rect (specH n d hh X V) n hh :=
  rect_mkMat n hh _

theorem rect_specO (n hh : Nat) (H W : Mat) : Rect (specO n hh H W) n 1 :=
  rect_mkMat n 1 _

theorem rect_specDeltaO (n : Nat) (O t : Mat) : Rect (specDeltaO n O t) n 1 :=
  rect_mkMat n 1 _

theorem rect_specDeltaH (n hh : Nat) (dO W H : Mat) : Rect (specDeltaH n hh dO W H) n hh :=
  rect_mkMat n hh _

theorem forward_eq {X V W : Mat} {n d hh : Nat} (hX : Rect X n d) (hV : Rect V d hh)
    (hW : Rect W hh 1) (hn : 0 < n) (hd : 0 < d) (hhh : 0 < hh) :
    forward_pass V W X =
      some (specH n d hh X V, specO n hh (specH n d hh X V) W) := by
  unfold forward_pass
  rw [npMatMul_eq hX hV hn hd]
  simp only [Option.bind_eq_bind, Option.some_bind]
  rw [matMap_mkMat]
  rw [npMatMul_eq (rect_mkMat n hh _) hW hn hhh]
  simp only [Option.some_bind]
  rw [matMap_mkMat]
  rfl

theorem deltaO_eq {O t : Mat} {n : Nat} (hO : Rect O n 1) (ht : Rect t n 1)
    (hn : 0 < n) : delta_o_mat O t = some (specDeltaO n O t) := by
  unfold delta_o_mat
  rw [npSub_rect_eq hO ht hn]
  simp only [Option.bind_eq_bind, Option.some_bind]
  rw [npMul_rect_eq (rect_mkMat n 1 _) (rect_matMap d_activation hO) hn]
  refine congrArg some (mkMat_congr ?_)
  intro i hi j hj
  rw [entry_mkMat _ hi hj, entry_matMap d_activation hO hi hj]

theorem deltaH_eq {dO W H : Mat} {n hh : Nat} (hdO : Rect dO n 1) (hW : Rect W hh 1)
    (hH : Rect H n hh) (hn : 0 < n) (hhh : 0 < hh) :
    delta_h_mat dO W H = some (specDeltaH n hh dO W H) := by
  unfold delta_h_mat
  rw [npMatMul_eq hdO (rect_transposeM hW hhh) hn Nat.one_pos]
  simp only [Option.bind_eq_bind, Option.some_bind]
  rw [npMul_rect_eq (rect_mkMat n hh _) (rect_matMap d_activation hH) hn]
  refine congrArg some (mkMat_congr ?_)
  intro i hi j hj
  rw [entry_mkMat _ hi hj, entry_matMap d_activation hH hi hj, Finset.sum_range_one,
    entry_transposeM hW hhh Nat.one_pos hj]

theorem rect_predict {X : Mat} {n c : Nat} (θ : ℝ) (h : Rect X n c) :
    Rect (predict X θ) n c :=
  rect_matMap _ (rect_matMap _ h)

theorem compute_accuracy_eq {V W X t : Mat} {n d hh : Nat} (hX : Rect X n d)
    (ht : Rect t n 1) (hV : Rect V d hh) (hW : Rect W hh 1)
    (hn : 0 < n) (hd : 0 < d) (hhh : 0 < hh) :
    compute_accuracy V W X t =
      some (1 - npMean (mkMat n 1 fun i j =>
        neInd (entry (predict (specO n hh (specH n d hh X V) W) 0) i j) (entry t i j))) := by
  unfold compute_accuracy
  rw [forward_eq hX hV hW hn hd hhh]
  simp only [Option.bind_eq_bind, Option.some_bind]
  rw [npNe_rect_eq (rect_predict 0 (rect_specO n hh _ W)) ht hn]
  simp only [Option.some_bind]

theorem rect_specVnew (d hh n : Nat) (eta : ℝ) (V X dH : Mat) :
    Rect (specVnew d hh n eta V X dH) d hh :=
  rect_mkMat d hh _

theorem rect_specWnew (hh n : Nat) (eta : ℝ) (W H dO : Mat) :
    Rect (specWnew hh n eta W H dO) hh 1 :=
  rect_mkMat hh 1 _

theorem vUpdate_eq {X dH V : Mat} {n d hh : Nat} (eta : ℝ) (hX : Rect X n d)
    (hV : Rect V d hh) (hn : 0 < n) (hd : 0 < d) :
    npAdd V (smulMat (-eta) (mkMat d hh fun i j =>
        ∑ k ∈ Finset.range n, entry (transposeM X) i k * entry dH k j)) =
      some (specVnew d hh n eta V X dH) := by
  unfold smulMat
  rw [npAdd_rect_eq hV (rect_matMap _ (rect_mkMat d hh _)) hd]
  unfold specVnew
  refine congrArg some (mkMat_congr ?_)
  intro i hi j hj
  rw [entry_matMap _ (rect_mkMat d hh _) hi hj, entry_mkMat _ hi hj,
    Finset.sum_congr rfl fun k hk => by
      rw [entry_transposeM hX hn hi (Finset.mem_range.mp hk)]]
  ring

theorem wUpdate_eq {H dO W : Mat} {n hh : Nat} (eta : ℝ) (hH : Rect H n hh)
    (hW : Rect W hh 1) (hn : 0 < n) (hhh : 0 < hh) :
    npAdd W (smulMat (-eta) (mkMat hh 1 fun i j =>
        ∑ k ∈ Finset.range n, entry (transposeM H) i k * entry dO k j)) =
      some (specWnew hh n eta W H dO) := by
  unfold smulMat
  rw [npAdd_rect_eq hW (rect_matMap _ (rect_mkMat hh 1 _)) hhh]
  unfold specWnew
  refine congrArg some (mkMat_congr ?_)
  intro i hi j hj
  rw [entry_matMap _ (rect_mkMat hh 1 _) hi hj, entry_mkMat _ hi hj,
    Finset.sum_congr rfl fun k hk => by
      rw [entry_transposeM hH hn hi (Finset.mem_range.mp hk)]]
  ring

theorem epochStep_eq {X t V W : Mat} {n d hh : Nat} (eta : ℝ) (hX : Rect X n d)
    (ht : Rect t n 1) (hV : Rect V d hh) (hW : Rect W hh 1)
    (hn : 0 < n) (hd : 0 < d) (hhh : 0 < hh) :
    ∃ acc,
      epochStep eta V W X t =
        some (specVnew d hh n eta V X
                (specDeltaH n hh (specDeltaO n (specO n hh (specH n d hh X V) W) t) W
                  (specH n d hh X V)),
              specWnew hh n eta W (specH n d hh X V)
                (specDeltaO n (specO n hh (specH n d hh X V) W) t),
              acc) ∧
      compute_accuracy
        (specVnew d hh n eta V X
          (specDeltaH n hh (specDeltaO n (specO n hh (specH n d hh X V) W) t) W
            (specH n d hh X V)))
        (specWnew hh n eta W (specH n d hh X V)
          (specDeltaO n (specO n hh (specH n d hh X V) W) t))
        X t = some acc := by
  obtain ⟨a, ha⟩ : ∃ a, compute_accuracy
      (specVnew d hh n eta V X
        (specDeltaH n hh (specDeltaO n (specO n hh (specH n d hh X V) W) t) W
          (specH n d hh X V)))
      (specWnew hh n eta W (specH n d hh X V)
        (specDeltaO n (specO n hh (specH n d hh X V) W) t))
      X t = some a :=
    ⟨_, compute_accuracy_eq hX ht (rect_specVnew d hh n eta V X _)
      (rect_specWnew hh n eta W _ _) hn hd hhh⟩
  refine ⟨a, ?_, ha⟩
  unfold epochStep
  rw [forward_eq hX hV hW hn hd hhh]
  simp only [Option.bind_eq_bind, Option.some_bind]
  rw [deltaO_eq (rect_specO n hh _ W) ht hn]
  simp only [Option.some_bind]
  rw [deltaH_eq (rect_specDeltaO n _ t) hW (rect_specH n d hh X V) hn hhh]
  simp only [Option.some_bind]
  rw [npMatMul_eq (rect_transposeM hX hn) (rect_specDeltaH n hh _ W _) hd hn]
  simp only [Option.some_bind]
  rw [vUpdate_eq eta hX hV hn hd]
  simp only [Option.some_bind]
  rw [npMatMul_eq (rect_transposeM (rect_specH n d hh X V) hn) (rect_specDeltaO n _ t) hhh hn]
  simp only [Option.some_bind]
  rw [wUpdate_eq eta (rect_specH n d hh X V) hW hn hhh]
  simp only [Option.some_bind]
  rw [ha]
  simp only [Option.some_bind]

/-! ### The training loop invariant -/

theorem trainLoop_succ_of_some {eta : ℝ} {X t V W Vn Wn : Mat} {fuel : Nat} {acc : ℝ}
    (heq : epochStep eta V W X t = some (Vn, Wn, acc)) :
    trainLoop eta X t (fuel + 1) V W =
      if acc = 1 then (Vn, Wn, 1, Outcome.Converged)
      else ((trainLoop eta X t fuel Vn Wn).1, (trainLoop eta X t fuel Vn Wn).2.1,
        (trainLoop eta X t fuel Vn Wn).2.2.1 + 1,
        (trainLoop eta X t fuel Vn Wn).2.2.2) := by
  rw [trainLoop, heq]

theorem trainLoop_spec {X t : Mat} {n d hh : Nat} (eta : ℝ) (hX : Rect X n d)
    (ht : Rect t n 1) (hn : 0 < n) (hd : 0 < d) (hhh : 0 < hh) :
    ∀ fuel (V W : Mat), Rect V d hh → Rect W hh 1 →
      (trainLoop eta X t fuel V W).2.2.1 ≤ fuel ∧
      (trainLoop eta X t fuel V W).2.2.2 ≠ Outcome.Error ∧
      ((trainLoop eta X t fuel V W).2.2.2 = Outcome.Exhausted →
        (trainLoop eta X t fuel V W).2.2.1 = fuel) ∧
      ((trainLoop eta X t fuel V W).2.2.2 = Outcome.Converged →
        compute_accuracy (trainLoop eta X t fuel V W).1
          (trainLoop eta X t fuel V W).2.1 X t = some 1) := by
  intro fuel
  induction fuel with
  | zero =>
    intro V W _ _
    refine ⟨le_refl 0, by simp [trainLoop], fun _ => rfl, fun hco => ?_⟩
    simp [trainLoop] at hco
  | succ fuel ih =>
    intro V W hV hW
    obtain ⟨acc, heq, hacc⟩ := epochStep_eq eta hX ht hV hW hn hd hhh
    rw [trainLoop_succ_of_some heq]
    by_cases h1 : acc = 1
    · rw [if_pos h1]
      refine ⟨Nat.succ_le_succ (Nat.zero_le fuel), by simp, by simp, fun _ => ?_⟩
      rw [← h1]
      exact hacc
    · rw [if_neg h1]
      obtain ⟨ihle, ihne, ihex, ihco⟩ :=
        ih _ _ (rect_specVnew d hh n eta V X _) (rect_specWnew hh n eta W _ _)
      exact ⟨Nat.succ_le_succ ihle, ihne, fun h => by rw [ihex h], ihco⟩

/-! ### Pointwise behaviour of `predict` -/

theorem entry_predict {X : Mat} {n c i j : Nat} (θ : ℝ) (h : Rect X n c)
    (hi : i < n) (hj : j < c) :
    entry (predict X θ) i j =
      if (if θ ≤ entry X i j then 1 else entry X i j) < θ then -1
      else if θ ≤ entry X i j then 1 else entry X i j := by
  unfold predict
  rw [entry_matMap _ (rect_matMap _ h) hi hj, entry_matMap _ h hi hj]

theorem predict_labels {X : Mat} (θ : ℝ) :
    ∀ r ∈ predict X θ, ∀ x ∈ r, x = 1 ∨ x = -1 := by
  intro r hr x hx
  simp only [predict, matMap, List.mem_map] at hr
  obtain ⟨r1, hr1, rfl⟩ := hr
  obtain ⟨r0, _, rfl⟩ := hr1
  simp only [List.mem_map, List.map_map] at hx
  obtain ⟨z, _, rfl⟩ := hx
  simp only [Function.comp]
  by_cases hz : θ ≤ z
  · simp only [if_pos hz]
    by_cases h1 : (1:ℝ) < θ
    · simp [if_pos h1]
    · simp [if_neg h1]
  · simp only [if_neg hz]
    simp [lt_of_not_le hz]

/-! ### Heap-level embedding of the in-place mutation in `predict` -/

/-- Embeds the caller-visible effect of `predict`: the argument arrives by
reference (an index into a heap of matrix buffers), the labelled matrix is
written back over that same buffer, and the very same reference is returned
(`return X` in the source returns the mutated input object, not a copy). -/
noncomputable def predictRef (hp : List Mat) (r : Nat) (θ : ℝ) : List Mat × Nat :=
  (hp.set r (predict (hp.getD r []) θ), r)

/-- Embeds `compute_accuracy` at the heap level: the caller's `X` and `t` and
the trainer's `V` and `W` live in the heap at `xr`, `tr`, `vr`, `wr`; the
output `o` of `forward_pass` is a freshly allocated buffer appended to the
heap, and `predict` mutates that fresh buffer only. -/
noncomputable def compute_accuracyRef (hp : List Mat) (xr tr vr wr : Nat) :
    List Mat × Option ℝ :=
  match forward_pass (hp.getD vr []) (hp.getD wr []) (hp.getD xr []) with
  | none => (hp, none)
  | some ho =>
    let pr := predictRef (hp ++ [ho.2]) hp.length 0
    match npNe (pr.1.getD pr.2 []) (hp.getD tr []) with
    | none => (pr.1, none)
    | some ne => (pr.1, some (1 - npMean ne))

/-! ### Analysis of the activation function -/

theorem activation_zero : activation 0 = 0 := by
  unfold activation
  rw [neg_zero, Real.exp_zero]
  norm_num

theorem d_activation_zero : d_activation 0 = 1 / 2 := by
  unfold d_activation
  norm_num

theorem activation_bounds (z : ℝ) : -1 < activation z ∧ activation z < 1 := by
  unfold activation
  have he : 0 < Real.exp (-z) := Real.exp_pos _
  have h1 : (0:ℝ) < 1 + Real.exp (-z) := by linarith
  constructor
  · have h2 : 0 < 2 / (1 + Real.exp (-z)) := by positivity
    linarith
  · have h2 : 2 / (1 + Real.exp (-z)) < 2 := by
      rw [div_lt_iff₀ h1]
      linarith
    linarith

theorem activation_hasDerivAt (z : ℝ) :
    HasDerivAt activation (d_activation (activation z)) z := by
  have he : 0 < Real.exp (-z) := Real.exp_pos _
  have hne : 1 + Real.exp (-z) ≠ 0 := by positivity
  have h1 : HasDerivAt (fun x : ℝ => -x) (-1) z := (hasDerivAt_id z).neg
  have h2 : HasDerivAt (fun x : ℝ => Real.exp (-x)) (Real.exp (-z) * -1) z :=
    (Real.hasDerivAt_exp (-z)).comp z h1
  have h3 : HasDerivAt (fun x : ℝ => 1 + Real.exp (-x)) (Real.exp (-z) * -1) z :=
    h2.const_add 1
  have h4 : HasDerivAt (fun x : ℝ => (1 + Real.exp (-x))⁻¹)
      (-(Real.exp (-z) * -1) / (1 + Real.exp (-z)) ^ 2) z := h3.inv hne
  have h5 : HasDerivAt (fun x : ℝ => 2 * (1 + Real.exp (-x))⁻¹ - 1)
      (2 * (-(Real.exp (-z) * -1) / (1 + Real.exp (-z)) ^ 2)) z :=
    (h4.const_mul 2).sub_const 1
  have hfun : activation = fun x : ℝ => 2 * (1 + Real.exp (-x))⁻¹ - 1 := by
    funext x
    unfold activation
    rw [div_eq_mul_inv]
  rw [hfun]
  convert h5 using 1
  simp only [d_activation]
  field_simp
  ring

/-! ### Frame lemmas for the heap-level operations -/

theorem getD_append_length (hp : List Mat) (o : Mat) :
    (hp ++ [o]).getD hp.length [] = o := by
  rw [List.getD_eq_getElem _ _ (by simp)]
  simp

theorem predictRef_cell {hp : List Mat} {r : Nat} (θ : ℝ) (hr : r < hp.length) :
    (predictRef hp r θ).1.getD r [] = predict (hp.getD r []) θ := by
  unfold predictRef
  rw [List.getD_eq_getElem _ _ (by simpa using hr)]
  rw [List.getElem_set_self]

theorem predictRef_frame {hp : List Mat} {r i : Nat} (θ : ℝ) (hi : i < hp.length)
    (hir : r ≠ i) : (predictRef hp r θ).1.getD i [] = hp.getD i [] := by
  unfold predictRef
  rw [List.getD_eq_getElem _ _ (by simpa using hi), List.getD_eq_getElem _ _ hi]
  rw [List.getElem_set_ne hir]

theorem compute_accuracyRef_spec (hp : List Mat) (xr tr vr wr : Nat) :
    (∀ i, i < hp.length →
      (compute_accuracyRef hp xr tr vr wr).1.getD i [] = hp.getD i []) ∧
    (compute_accuracyRef hp xr tr vr wr).2 =
      compute_accuracy (hp.getD vr []) (hp.getD wr []) (hp.getD xr [])
        (hp.getD tr []) := by
  unfold compute_accuracyRef
  cases hfw : forward_pass (hp.getD vr []) (hp.getD wr []) (hp.getD xr []) with
  | none =>
    refine ⟨fun i _ => rfl, ?_⟩
    unfold compute_accuracy
    rw [hfw]
    rfl
  | some ho =>
    have hcell : (predictRef (hp ++ [ho.2]) hp.length 0).1.getD hp.length []
        = predict ho.2 0 := by
      rw [predictRef_cell 0 (by simp), getD_append_length]
    have hframe : ∀ i, i < hp.length →
        (predictRef (hp ++ [ho.2]) hp.length 0).1.getD i [] = hp.getD i [] := by
      intro i hi
      rw [predictRef_frame 0 (by simp; omega) (by omega)]
      rw [List.getD_eq_getElem _ _ (by simp; omega), List.getD_eq_getElem _ _ hi]
      rw [List.getElem_append_left]
    have hacc : compute_accuracy (hp.getD vr []) (hp.getD wr []) (hp.getD xr [])
        (hp.getD tr []) =
        match npNe (predict ho.2 0) (hp.getD tr []) with
        | none => none
        | some ne => some (1 - npMean ne) := by
      unfold compute_accuracy
      rw [hfw]
      simp only [Option.bind_eq_bind, Option.some_bind]
      cases hne : npNe (predict ho.2 0) (hp.getD tr []) <;> simp [hne]
    have hret : (predictRef (hp ++ [ho.2]) hp.length 0).2 = hp.length := rfl
    dsimp only
    rw [hret, hcell, hacc]
    cases hne : npNe (predict ho.2 0) (hp.getD tr []) with
    | none => exact ⟨hframe, rfl⟩
    | some ne => exact ⟨hframe, rfl⟩

/-! ### A concrete training run with mismatched row counts

`X` has two rows while `t` has one: numpy silently broadcasts `o - t` and
`p != t`, and the run completes normally (here it even converges after the
first epoch). -/

theorem forward_pass_zero_run :
    forward_pass [[0]] [[0]] [[0], [0]] = some ([[0], [0]], [[0], [0]]) := by
  have hm1 : npMatMul [[0], [0]] [[(0:ℝ)]] = some [[0], [0]] := by
    norm_num [npMatMul, mkMat, colsM, rowsM, entry, List.range_succ, Finset.sum_range_one]
  have hact : matMap activation [[0], [0]] = [[0], [0]] := by
    simp [matMap, activation_zero]
  simp only [forward_pass, Option.bind_eq_bind]
  rw [hm1]
  simp only [Option.some_bind]
  rw [hact, hm1]
  simp only [Option.some_bind]
  rw [hact]

theorem compute_accuracy_zero_run :
    compute_accuracy [[0]] [[0]] [[0], [0]] [[1]] = some 1 := by
  have hpred : predict [[0], [0]] 0 = [[1], [1]] := by
    norm_num [predict, matMap]
  have hne : npNe [[1], [1]] [[(1:ℝ)]] = some [[0], [0]] := by
    norm_num [npNe, npBinop, broadcastDim, bEntry, mkMat, colsM, rowsM, entry,
      neInd, List.range_succ]
  have hmean : npMean [[0], [0]] = 0 := by
    norm_num [npMean, entriesSum, rowsM, colsM]
  simp only [compute_accuracy, Option.bind_eq_bind]
  rw [forward_pass_zero_run]
  simp only [Option.some_bind]
  rw [hpred, hne]
  simp only [Option.some_bind]
  rw [hmean]
  norm_num

theorem epochStep_mismatch_run :
    epochStep 1 [[0]] [[0]] [[0], [0]] [[1]] = some ([[0]], [[0]], 1) := by
  have hsub : npSub [[0], [0]] [[(1:ℝ)]] = some [[-1], [-1]] := by
    norm_num [npSub, npBinop, broadcastDim, bEntry, mkMat, colsM, rowsM, entry,
      List.range_succ]
  have hdact : matMap d_activation [[0], [0]] = [[1 / 2], [1 / 2]] := by
    simp [matMap, d_activation_zero]
  have hmul1 : npMul [[-1], [-1]] [[1 / 2], [1 / 2]] = some [[-(1 / 2)], [-(1 / 2)]] := by
    norm_num [npMul, npBinop, broadcastDim, bEntry, mkMat, colsM, rowsM, entry,
      List.range_succ]
  have hdo : delta_o_mat [[0], [0]] [[1]] = some [[-(1 / 2)], [-(1 / 2)]] := by
    simp only [delta_o_mat, Option.bind_eq_bind]
    rw [hsub]
    simp only [Option.some_bind]
    rw [hdact, hmul1]
  have htW : transposeM [[(0:ℝ)]] = [[0]] := by
    norm_num [transposeM, mkMat, colsM, rowsM, entry, List.range_succ]
  have hmm2 : npMatMul [[-(1 / 2)], [-(1 / 2)]] [[(0:ℝ)]] = some [[0], [0]] := by
    norm_num [npMatMul, mkMat, colsM, rowsM, entry, List.range_succ, Finset.sum_range_one]
  have hmul2 : npMul [[0], [0]] [[1 / 2], [1 / 2]] = some [[0], [0]] := by
    norm_num [npMul, npBinop, broadcastDim, bEntry, mkMat, colsM, rowsM, entry,
      List.range_succ]
  have hdh : delta_h_mat [[-(1 / 2)], [-(1 / 2)]] [[0]] [[0], [0]] = some [[0], [0]] := by
    simp only [delta_h_mat, Option.bind_eq_bind]
    rw [htW, hmm2]
    simp only [Option.some_bind]
    rw [hdact, hmul2]
  have htX : transposeM [[0], [0]] = [[0, 0]] := by
    norm_num [transposeM, mkMat, colsM, rowsM, entry, List.range_succ]
  have hgV : npMatMul [[0, 0]] [[0], [0]] = some [[(0:ℝ)]] := by
    norm_num [npMatMul, mkMat, colsM, rowsM, entry, List.range_succ,
      Finset.sum_range_succ, Finset.sum_range_zero]
  have hsm : smulMat (-1) [[0]] = [[(0:ℝ)]] := by
    norm_num [smulMat, matMap]
  have hadd : npAdd [[0]] [[(0:ℝ)]] = some [[0]] := by
    norm_num [npAdd, npBinop, broadcastDim, bEntry, mkMat, colsM, rowsM, entry,
      List.range_succ]
  have hgW : npMatMul [[0, 0]] [[-(1 / 2)], [-(1 / 2)]] = some [[(0:ℝ)]] := by
    norm_num [npMatMul, mkMat, colsM, rowsM, entry, List.range_succ,
      Finset.sum_range_succ, Finset.sum_range_zero]
  simp only [epochStep, Option.bind_eq_bind]
  rw [forward_pass_zero_run]
  simp only [Option.some_bind]
  rw [hdo]
  simp only [Option.some_bind]
  rw [hdh]
  simp only [Option.some_bind]
  rw [htX, hgV]
  simp only [Option.some_bind]
  rw [hsm, hadd]
  simp only [Option.some_bind]
  rw [hgW]
  simp only [Option.some_bind]
  rw [hsm, hadd]
  simp only [Option.some_bind]
  rw [compute_accuracy_zero_run]
  simp only [Option.some_bind]

/-- The embedded `train` on an `X` with two rows and a `t` with one row:
numpy silently broadcasts `o - t` and `p != t`, no error is raised, and the
run reports convergence after one epoch. -/
theorem train_mismatch_run :
    train 1 1 [[0]] [[0]] [[0], [0]] [[1]] = ([[0]], [[0]], 1, Outcome.Converged) := by
  unfold train
  rw [trainLoop_succ_of_some epochStep_mismatch_run]
  simp

theorem broadcastDim_self (a : Nat) : broadcastDim a a = some a := by
  simp [broadcastDim]

theorem broadcastDim_one_left (m : Nat) : broadcastDim 1 m = some m := by
  by_cases h : m = 1 <;> simp [broadcastDim, h]

theorem broadcastDim_one_right (m : Nat) : broadcastDim m 1 = some m := by
  by_cases h : m = 1 <;> simp [broadcastDim, h]

theorem npBinop_some_shape (f : ℝ → ℝ → ℝ) (A B : Mat) {p q : Nat}
    (hr : broadcastDim (rowsM A) (rowsM B) = some p)
    (hc : broadcastDim (colsM A) (colsM B) = some q) :
    ∃ C, npBinop f A B = some C ∧ Rect C p q := by
  refine ⟨mkMat p q fun i j => f (bEntry A i j) (bEntry B i j), ?_, rect_mkMat p q _⟩
  unfold npBinop
  rw [hr, hc]

theorem npMatMul_none {A B : Mat} (h : colsM A ≠ rowsM B) : npMatMul A B = none := by
  unfold npMatMul
  simp only [rowsM] at h
  rw [if_neg h]

/-- When the row counts of `X` and `t` differ, `t` has at least two rows and
both counts are nonzero, the first epoch raises a numpy error — in `o - t`
when `X` also has at least two rows, otherwise (a single-row `X`) the deltas
broadcast to `t`'s row count and `X.T @ delta_h` raises a matmul error.
Either way `train` surfaces the error with the freshly initialised weights
`V0`, `W0` unchanged, after `initialize_weights` has already stored them. -/
theorem train_mismatch_error {X t V0 W0 : Mat} {n m d hh : Nat} (eta : ℝ) (fuel : Nat)
    (hX : Rect X n d) (ht : Rect t m 1) (hV : Rect V0 d hh) (hW : Rect W0 hh 1)
    (hn : 0 < n) (hm : 0 < m) (hd : 0 < d) (hhh : 0 < hh)
    (hnm : n ≠ m) (hm1 : m ≠ 1) :
    train eta (fuel + 1) V0 W0 X t = (V0, W0, 0, Outcome.Error) := by
  have hepoch : epochStep eta V0 W0 X t = none := by
    by_cases hn1 : n = 1
    · subst hn1
      have hrO : Rect (specO 1 hh (specH 1 d hh X V0) W0) 1 1 :=
        rect_specO 1 hh _ W0
      have hrdaO : Rect (matMap d_activation (specO 1 hh (specH 1 d hh X V0) W0)) 1 1 :=
        rect_matMap d_activation hrO
      obtain ⟨E, hE, hrE⟩ := npBinop_some_shape (fun a b => a - b)
        (specO 1 hh (specH 1 d hh X V0) W0) t
        (by rw [hrO.rows_eq, ht.rows_eq]; exact broadcastDim_one_left m)
        (by rw [hrO.cols_eq Nat.one_pos, ht.cols_eq hm]; exact broadcastDim_self 1)
      obtain ⟨dO, hdO, hrdO⟩ := npBinop_some_shape (fun a b => a * b)
        E (matMap d_activation (specO 1 hh (specH 1 d hh X V0) W0))
        (by rw [hrE.rows_eq, hrdaO.rows_eq]; exact broadcastDim_one_right m)
        (by rw [hrE.cols_eq hm, hrdaO.cols_eq Nat.one_pos]; exact broadcastDim_self 1)
      have hdelta_o : delta_o_mat (specO 1 hh (specH 1 d hh X V0) W0) t = some dO := by
        simp only [delta_o_mat, Option.bind_eq_bind]
        rw [show npSub (specO 1 hh (specH 1 d hh X V0) W0) t = some E from hE]
        simp only [Option.some_bind]
        exact hdO
      have hrdaH : Rect (matMap d_activation (specH 1 d hh X V0)) 1 hh :=
        rect_matMap d_activation (rect_specH 1 d hh X V0)
      have hrP : Rect (mkMat m hh fun i j => ∑ kk ∈ Finset.range 1,
          entry dO i kk * entry (transposeM W0) kk j) m hh := rect_mkMat m hh _
      obtain ⟨dH, hdH, hrdH⟩ := npBinop_some_shape (fun a b => a * b)
        (mkMat m hh fun i j => ∑ kk ∈ Finset.range 1,
          entry dO i kk * entry (transposeM W0) kk j)
        (matMap d_activation (specH 1 d hh X V0))
        (by rw [hrP.rows_eq, hrdaH.rows_eq]
            exact broadcastDim_one_right m)
        (by rw [hrP.cols_eq hm, hrdaH.cols_eq Nat.one_pos]
            exact broadcastDim_self hh)
      have hdelta_h : delta_h_mat dO W0 (specH 1 d hh X V0) = some dH := by
        simp only [delta_h_mat, Option.bind_eq_bind]
        rw [npMatMul_eq hrdO (rect_transposeM hW hhh) hm Nat.one_pos]
        simp only [Option.some_bind]
        exact hdH
      have hgV : npMatMul (transposeM X) dH = none :=
        npMatMul_none (by
          rw [(rect_transposeM hX Nat.one_pos).cols_eq hd, hrdH.rows_eq]
          exact hnm)
      simp only [epochStep, Option.bind_eq_bind]
      rw [forward_eq hX hV hW Nat.one_pos hd hhh]
      simp only [Option.some_bind]
      rw [hdelta_o]
      simp only [Option.some_bind]
      rw [hdelta_h]
      simp only [Option.some_bind]
      rw [hgV]
      rfl
    · have hsub : npSub (specO n hh (specH n d hh X V0) W0) t = none :=
        npBinop_none _ (by
          rw [(rect_specO n hh (specH n d hh X V0) W0).rows_eq, ht.rows_eq]
          exact broadcastDim_none hnm hn1 hm1)
      have hdo : delta_o_mat (specO n hh (specH n d hh X V0) W0) t = none := by
        simp only [delta_o_mat, Option.bind_eq_bind]
        rw [hsub]
        rfl
      simp only [epochStep, Option.bind_eq_bind]
      rw [forward_eq hX hV hW hn hd hhh]
      simp only [Option.some_bind]
      rw [hdo]
      rfl
  unfold train
  rw [trainLoop, hepoch]

/-! ### Concrete rectangular matrices used by the witnesses -/

theorem rect_one_one (x : ℝ) : Rect [[x]] 1 1 := ⟨rfl, by simp⟩

theorem rect_two_one (x y : ℝ) : Rect [[x], [y]] 2 1 := ⟨rfl, by simp⟩

theorem rect_three_one (x y z : ℝ) : Rect [[x], [y], [z]] 3 1 := ⟨rfl, by simp⟩

theorem rect_one_two (x y : ℝ) : Rect [[x, y]] 1 2 := ⟨rfl, by simp⟩

/-! ### The claims -/

/-- C1: for every input matrix `X` of shape `n × d` and weights `V` (`d × h`)
and `W` (`h × 1`), `forward_pass` returns the pair `(H, O)` with
`H = φ(X·V)` and `O = φ(H·W)` entrywise, where `φ(z) = 2/(1+e^{-z}) − 1`.
`V` and `W` are left unchanged: the embedded `forward_pass` is a pure
function of the weights, exactly as the source method reads but never
assigns `self.V` and `self.W`. -/
theorem C1_forward_pass_spec {X V W : Mat} {n d hh : Nat} (hX : Rect X n d)
    (hV : Rect V d hh) (hW : Rect W hh 1) (hn : 0 < n) (hd : 0 < d)
    (hhh : 0 < hh) :
    ∃ H O, forward_pass V W X = some (H, O) ∧ Rect H n hh ∧ Rect O n 1 ∧
      (∀ i < n, ∀ j < hh, entry H i j =
        activation (∑ k ∈ Finset.range d, entry X i k * entry V k j)) ∧
      (∀ i < n, ∀ j < 1, entry O i j =
        activation (∑ k ∈ Finset.range hh, entry H i k * entry W k j)) := by
  refine ⟨specH n d hh X V, specO n hh (specH n d hh X V) W,
    forward_eq hX hV hW hn hd hhh, rect_specH n d hh X V, rect_specO n hh _ W,
    fun i hi j hj => ?_, fun i hi j hj => ?_⟩
  · exact entry_mkMat _ hi hj
  · exact entry_mkMat _ hi hj

theorem C1_forward_pass_spec_witness :
    ∃ H O, forward_pass [[0]] [[0]] [[0]] = some (H, O) ∧ Rect H 1 1 ∧ Rect O 1 1 ∧
      (∀ i < 1, ∀ j < 1, entry H i j =
        activation (∑ k ∈ Finset.range 1, entry [[(0:ℝ)]] i k * entry [[(0:ℝ)]] k j)) ∧
      (∀ i < 1, ∀ j < 1, entry O i j =
        activation (∑ k ∈ Finset.range 1, entry H i k * entry [[(0:ℝ)]] k j)) :=
  C1_forward_pass_spec (rect_one_one 0) (rect_one_one 0) (rect_one_one 0)
    Nat.one_pos Nat.one_pos Nat.one_pos

/-- C2: in every training epoch the error signals are exactly
`δ_O = (O − T) ⊙ φ'(O)` and `δ_H = (δ_O · Wᵀ) ⊙ φ'(H)` with
`φ'(a) = (1+a)(1−a)/2`; the embedded computation is pure (the source lines
only bind the locals `delta_o`, `delta_h` and assign no attribute). -/
theorem C2_error_signals {O t W H : Mat} {n hh : Nat} (hO : Rect O n 1)
    (ht : Rect t n 1) (hW : Rect W hh 1) (hH : Rect H n hh) (hn : 0 < n)
    (hhh : 0 < hh) :
    ∃ dO dH, delta_o_mat O t = some dO ∧ delta_h_mat dO W H = some dH ∧
      (∀ i < n, ∀ j < 1, entry dO i j =
        (entry O i j - entry t i j) * d_activation (entry O i j)) ∧
      (∀ i < n, ∀ j < hh, entry dH i j =
        (∑ k ∈ Finset.range 1, entry dO i k * entry W j k) *
          d_activation (entry H i j)) := by
  refine ⟨specDeltaO n O t, specDeltaH n hh (specDeltaO n O t) W H,
    deltaO_eq hO ht hn, deltaH_eq (rect_specDeltaO n O t) hW hH hn hhh,
    fun i hi j hj => entry_mkMat _ hi hj, fun i hi j hj => ?_⟩
  have h1 : entry (specDeltaH n hh (specDeltaO n O t) W H) i j =
      (entry (specDeltaO n O t) i 0 * entry W j 0) * d_activation (entry H i j) :=
    entry_mkMat _ hi hj
  rw [h1, Finset.sum_range_one]

theorem C2_error_signals_witness :
    ∃ dO dH, delta_o_mat [[0]] [[1]] = some dO ∧
      delta_h_mat dO [[0]] [[0]] = some dH ∧
      (∀ i < 1, ∀ j < 1, entry dO i j =
        (entry [[(0:ℝ)]] i j - entry [[(1:ℝ)]] i j) *
          d_activation (entry [[(0:ℝ)]] i j)) ∧
      (∀ i < 1, ∀ j < 1, entry dH i j =
        (∑ k ∈ Finset.range 1, entry dO i k * entry [[(0:ℝ)]] j k) *
          d_activation (entry [[(0:ℝ)]] i j)) :=
  C2_error_signals (rect_one_one 0) (rect_one_one 1) (rect_one_one 0)
    (rect_one_one 0) Nat.one_pos Nat.one_pos

/-- C3: in every training epoch, with learning rate `η`, the new weights
satisfy `V ← V − η·Xᵀ·δ_H` and `W ← W − η·Hᵀ·δ_O` entrywise, aggregating
all `n` observations in one full-batch step.  In the embedded trainer this
update inside `epochStep` is the only place a new weight pair is produced:
`forward_pass`, the delta computations, `predict` and `compute_accuracy`
are all pure in `V` and `W`. -/
theorem C3_weight_update {X t V W : Mat} {n d hh : Nat} (eta : ℝ)
    (hX : Rect X n d) (ht : Rect t n 1) (hV : Rect V d hh) (hW : Rect W hh 1)
    (hn : 0 < n) (hd : 0 < d) (hhh : 0 < hh) :
    ∃ H O dO dH Vn Wn acc,
      forward_pass V W X = some (H, O) ∧
      delta_o_mat O t = some dO ∧
      delta_h_mat dO W H = some dH ∧
      epochStep eta V W X t = some (Vn, Wn, acc) ∧
      (∀ i < d, ∀ j < hh, entry Vn i j =
        entry V i j - eta * ∑ k ∈ Finset.range n, entry X k i * entry dH k j) ∧
      (∀ i < hh, ∀ j < 1, entry Wn i j =
        entry W i j - eta * ∑ k ∈ Finset.range n, entry H k i * entry dO k j) := by
  obtain ⟨acc, heq, _⟩ := epochStep_eq eta hX ht hV hW hn hd hhh
  refine ⟨specH n d hh X V, specO n hh (specH n d hh X V) W,
    specDeltaO n (specO n hh (specH n d hh X V) W) t,
    specDeltaH n hh (specDeltaO n (specO n hh (specH n d hh X V) W) t) W
      (specH n d hh X V),
    _, _, acc, forward_eq hX hV hW hn hd hhh,
    deltaO_eq (rect_specO n hh _ W) ht hn,
    deltaH_eq (rect_specDeltaO n _ t) hW (rect_specH n d hh X V) hn hhh,
    heq, fun i hi j hj => entry_mkMat _ hi hj,
    fun i hi j hj => entry_mkMat _ hi hj⟩

theorem C3_weight_update_witness :
    ∃ H O dO dH Vn Wn acc,
      forward_pass [[0]] [[0]] [[0]] = some (H, O) ∧
      delta_o_mat O [[1]] = some dO ∧
      delta_h_mat dO [[0]] H = some dH ∧
      epochStep 1 [[0]] [[0]] [[0]] [[1]] = some (Vn, Wn, acc) ∧
      (∀ i < 1, ∀ j < 1, entry Vn i j =
        entry [[(0:ℝ)]] i j -
          1 * ∑ k ∈ Finset.range 1, entry [[(0:ℝ)]] k i * entry dH k j) ∧
      (∀ i < 1, ∀ j < 1, entry Wn i j =
        entry [[(0:ℝ)]] i j -
          1 * ∑ k ∈ Finset.range 1, entry H k i * entry dO k j) :=
  C3_weight_update 1 (rect_one_one 0) (rect_one_one 1) (rect_one_one 0)
    (rect_one_one 0) Nat.one_pos Nat.one_pos Nat.one_pos

/-- C4: for every shape-consistent `X`, `t` and epoch budget, `train`
terminates (the embedding is a total function), never reports an error, runs
at most `epochs` epochs, reports `Converged` only in a state whose training
accuracy is `1.0`, and reports `Exhausted` exactly when the full budget was
used; non-convergence is the normal `Exhausted` return, not an exception. -/
theorem C4_train_termination {X t V0 W0 : Mat} {n d hh : Nat} (eta : ℝ)
    (epochs : Nat) (hX : Rect X n d) (ht : Rect t n 1) (hV : Rect V0 d hh)
    (hW : Rect W0 hh 1) (hn : 0 < n) (hd : 0 < d) (hhh : 0 < hh) :
    (train eta epochs V0 W0 X t).2.2.1 ≤ epochs ∧
    (train eta epochs V0 W0 X t).2.2.2 ≠ Outcome.Error ∧
    ((train eta epochs V0 W0 X t).2.2.2 = Outcome.Exhausted →
      (train eta epochs V0 W0 X t).2.2.1 = epochs) ∧
    ((train eta epochs V0 W0 X t).2.2.2 = Outcome.Converged →
      compute_accuracy (train eta epochs V0 W0 X t).1
        (train eta epochs V0 W0 X t).2.1 X t = some 1) :=
  trainLoop_spec eta hX ht hn hd hhh epochs V0 W0 hV hW

theorem C4_train_termination_witness :
    (train 1 1 [[0]] [[0]] [[0]] [[1]]).2.2.1 ≤ 1 ∧
    (train 1 1 [[0]] [[0]] [[0]] [[1]]).2.2.2 ≠ Outcome.Error ∧
    ((train 1 1 [[0]] [[0]] [[0]] [[1]]).2.2.2 = Outcome.Exhausted →
      (train 1 1 [[0]] [[0]] [[0]] [[1]]).2.2.1 = 1) ∧
    ((train 1 1 [[0]] [[0]] [[0]] [[1]]).2.2.2 = Outcome.Converged →
      compute_accuracy (train 1 1 [[0]] [[0]] [[0]] [[1]]).1
        (train 1 1 [[0]] [[0]] [[0]] [[1]]).2.1 [[0]] [[1]] = some 1) :=
  C4_train_termination 1 1 (rect_one_one 0) (rect_one_one 1) (rect_one_one 0)
    (rect_one_one 0) Nat.one_pos Nat.one_pos Nat.one_pos

/-- C5 counterexample: the claim "whenever the row counts of X and T differ,
Train fails fast with an error" is false on the code: with `X` of two rows
and `t` of one row the run completes without any error (numpy silently
broadcasts `o - t` and `p != t`) and even reports convergence. -/
theorem C5_cex :
    ¬ (∀ (eta : ℝ) (epochs : Nat) (V0 W0 X t : Mat),
        rowsM X ≠ rowsM t →
        (train eta epochs V0 W0 X t).2.2.2 = Outcome.Error) := by
  intro hclaim
  have h := hclaim 1 1 [[0]] [[0]] [[0], [0]] [[1]] (by simp [rowsM])
  rw [train_mismatch_run] at h
  simp at h

/-- C5 (amended): `train` performs no shape validation, so nothing fails
before `initialize_weights` has already stored the fresh weights `V0`, `W0`.
When `t` has exactly one row, `o - t` and `p != t` are silently broadcast and
the run completes normally with no error at all (see the counterexample).
In every other mismatched case — `t` with at least two rows and a row count
different from `X`'s, including a single-row `X` — a numpy error is raised
during the first epoch (at `o - t`, or at `X.T @ delta_h` when `X` has one
row), and `train` surfaces it with the freshly initialised weights
unchanged; it never fails before that mutation. -/
theorem C5_no_shape_validation {X t V0 W0 : Mat} {n m d hh : Nat} (eta : ℝ)
    (fuel : Nat) (hX : Rect X n d) (ht : Rect t m 1) (hV : Rect V0 d hh)
    (hW : Rect W0 hh 1) (hn : 0 < n) (hm : 0 < m) (hd : 0 < d) (hhh : 0 < hh)
    (hnm : n ≠ m) (hm1 : m ≠ 1) :
    train eta (fuel + 1) V0 W0 X t = (V0, W0, 0, Outcome.Error) :=
  train_mismatch_error eta fuel hX ht hV hW hn hm hd hhh hnm hm1

theorem C5_no_shape_validation_witness :
    train 1 1 [[0]] [[0]] [[0]] [[1], [1], [1]] =
      ([[0]], [[0]], 0, Outcome.Error) :=
  C5_no_shape_validation 1 0 (rect_one_one 0) (rect_three_one 1 1 1)
    (rect_one_one 0) (rect_one_one 0) Nat.one_pos (by decide) Nat.one_pos
    Nat.one_pos (by decide) (by decide)

/-- C6: every element of the matrices `H` and `O` returned by `forward_pass`
lies strictly within the open interval `(−1, 1)`, because
`φ(z) = 2/(1+e^{-z}) − 1` is strictly bounded on the reals. -/
theorem C6_forward_bounded {V W X : Mat} {HO : Mat × Mat} {row : List ℝ} {x : ℝ}
    (hfw : forward_pass V W X = some HO)
    (hrow : row ∈ HO.1 ∨ row ∈ HO.2) (hx : x ∈ row) : -1 < x ∧ x < 1 := by
  simp only [forward_pass, Option.bind_eq_bind] at hfw
  cases h1 : npMatMul X V with
  | none =>
    rw [h1] at hfw
    simp at hfw
  | some m1 =>
    rw [h1] at hfw
    simp only [Option.some_bind] at hfw
    cases h2 : npMatMul (matMap activation m1) W with
    | none =>
      rw [h2] at hfw
      simp at hfw
    | some m2 =>
      rw [h2] at hfw
      simp only [Option.some_bind, Option.some.injEq] at hfw
      have hH : HO.1 = matMap activation m1 := by rw [← hfw]
      have hO : HO.2 = matMap activation m2 := by rw [← hfw]
      have key : ∀ m : Mat, row ∈ matMap activation m → -1 < x ∧ x < 1 := by
        intro m hrow'
        simp only [matMap, List.mem_map] at hrow'
        obtain ⟨r0, _, rfl⟩ := hrow'
        simp only [List.mem_map] at hx
        obtain ⟨y, _, rfl⟩ := hx
        exact activation_bounds y
      rcases hrow with hr | hr
      · exact key m1 (hH ▸ hr)
      · exact key m2 (hO ▸ hr)

theorem C6_forward_bounded_witness : -1 < (0:ℝ) ∧ (0:ℝ) < 1 :=
  @C6_forward_bounded [[0]] [[0]] [[0], [0]] ([[0], [0]], [[0], [0]]) [0] 0
    forward_pass_zero_run (Or.inl (by simp)) (by simp)

/-- C7: with the default threshold `0`, `predict` maps every element at or
above the threshold — in particular an element that is exactly `0.0` — to the
positive class `+1`, and every element strictly below `0` to `−1`.  The
two sequential masked passes of the source are safe at threshold `0` because
the `1`s written by the first pass are never below the threshold. -/
theorem C7_predict_threshold {X : Mat} {n c i j : Nat} (h : Rect X n c)
    (hi : i < n) (hj : j < c) :
    entry (predict X 0) i j = if 0 ≤ entry X i j then 1 else -1 := by
  rw [entry_predict 0 h hi hj]
  by_cases h0 : (0:ℝ) ≤ entry X i j
  · rw [if_pos h0, if_pos h0, if_neg (by norm_num)]
  · rw [if_neg h0, if_neg h0, if_pos (lt_of_not_le h0)]

theorem C7_predict_threshold_witness :
    entry (predict [[0, -1]] 0) 0 0 =
      if 0 ≤ entry [[(0:ℝ), -1]] 0 0 then 1 else -1 :=
  C7_predict_threshold (rect_one_two 0 (-1)) Nat.one_pos (by decide)

/-- C8: `predict` mutates its input matrix in place: in the heap embedding
the labelled matrix is written back over the caller's buffer, the returned
reference is the very same cell (no fresh allocation), and after the call the
caller's matrix holds only the label values `+1` and `−1`. -/
theorem C8_predict_in_place {hp : List Mat} {r : Nat} (θ : ℝ)
    (hr : r < hp.length) :
    (predictRef hp r θ).2 = r ∧
    (predictRef hp r θ).1.getD r [] = predict (hp.getD r []) θ ∧
    ∀ row ∈ (predictRef hp r θ).1.getD r [], ∀ x ∈ row, x = 1 ∨ x = -1 := by
  refine ⟨rfl, predictRef_cell θ hr, ?_⟩
  rw [predictRef_cell θ hr]
  exact predict_labels θ

theorem C8_predict_in_place_witness :
    (predictRef [[[0]]] 0 0).2 = 0 ∧
    (predictRef [[[0]]] 0 0).1.getD 0 [] = predict ([[[(0:ℝ)]]].getD 0 []) 0 ∧
    ∀ row ∈ (predictRef [[[0]]] 0 0).1.getD 0 [], ∀ x ∈ row, x = 1 ∨ x = -1 :=
  C8_predict_in_place 0 (by decide)

/-- C9: for every real `z` the backward-pass derivative expression evaluated
at `a = φ(z)`, namely `(1+φ(z))(1−φ(z))/2`, is the true derivative of the
activation `φ(z) = 2/(1+e^{-z}) − 1` at `z`. -/
theorem C9_derivative_consistent (z : ℝ) :
    HasDerivAt activation (d_activation (activation z)) z :=
  activation_hasDerivAt z

/-- C10: `compute_accuracy` leaves every caller-visible heap cell — in
particular the caller's `X` and `t` and the trainer's weights `V` and `W` —
unchanged, and returns the pure accuracy value: the matrix that `predict`
mutates inside it is the freshly allocated output of `forward_pass`, never
caller-supplied data. -/
theorem C10_compute_accuracy_frame {hp : List Mat} (xr tr vr wr : Nat)
    {i : Nat} (hi : i < hp.length) :
    (compute_accuracyRef hp xr tr vr wr).1.getD i [] = hp.getD i [] ∧
    (compute_accuracyRef hp xr tr vr wr).2 =
      compute_accuracy (hp.getD vr []) (hp.getD wr []) (hp.getD xr [])
        (hp.getD tr []) :=
  ⟨(compute_accuracyRef_spec hp xr tr vr wr).1 i hi,
    (compute_accuracyRef_spec hp xr tr vr wr).2⟩

theorem C10_compute_accuracy_frame_witness :
    (compute_accuracyRef [[[0]], [[1]]] 0 1 0 0).1.getD 0 [] =
      [[[(0:ℝ)]], [[1]]].getD 0 [] ∧
    (compute_accuracyRef [[[0]], [[1]]] 0 1 0 0).2 =
      compute_accuracy ([[[(0:ℝ)]], [[1]]].getD 0 [])
        ([[[(0:ℝ)]], [[1]]].getD 0 []) ([[[(0:ℝ)]], [[1]]].getD 0 [])
        ([[[(0:ℝ)]], [[1]]].getD 1 []) :=
  C10_compute_accuracy_frame 0 1 0 0 (by decide)
